import Mathlib

/-!
Verification development for `nilmtk/stats/goodsectionsresults.py`
(class `GoodSectionsResults`).

Shallow embedding conventions:
* Timestamps (`pd.Timestamp`) and the `max_sample_period` tolerance
  (a `timedelta` in seconds) are modelled as `Int`.
* A missing / unbounded bound (Python `None`, and the `NaT` sentinel used in
  the flat cache) is modelled as `Option.none`.
* Python exceptions (`IndexError`, `AssertionError`, uncaught `ValueError`,
  `NameError`) are modelled by returning `Option.none` / `Except.error` from
  the embedded operation.
* `self._data` (a `pd.DataFrame` whose index holds the chunk-start keys, in
  append order, with columns `end` and `sections`) is modelled as a
  `List ChunkRecord` in append order.
* In-place mutation of `TimeFrame` objects and of the per-row `sections`
  lists is modelled by returning the updated record list alongside the value
  a method returns: `combined` returns the produced interval list together
  with the post-call state of `_data`.
-/

/-- Modelled from the spec (the `nilmtk.timeframe.TimeFrame` class is not part
of `src/`): an interval with optionally unbounded `start` and `end` and an
inclusivity flag `include_end` on the end boundary (default `false`). -/
structure TimeFrame where
  start : Option Int
  end_ : Option Int
  include_end : Bool
deriving DecidableEq, Repr

/-- Modelled from the spec: the `TimeFrame(start, end)` constructor.  Setting
both bounds with `end < start` raises `ValueError` (modelled as `none`); a
fresh interval has `include_end = false`. -/
def TimeFrame.mk? (s e : Option Int) : Option TimeFrame :=
  match s, e with
  | some a, some b => if b < a then none else some ⟨s, e, false⟩
  | _, _ => some ⟨s, e, false⟩

/-- Modelled from the spec: the `TimeFrame.end` setter.  Assigning an `end`
below the current bounded `start` raises `ValueError` (modelled as `none`);
otherwise the field is updated in place. -/
def TimeFrame.trySetEnd (tf : TimeFrame) (e : Option Int) : Option TimeFrame :=
  match tf.start, e with
  | some a, some b => if b < a then none else some { tf with end_ := e }
  | _, _ => some { tf with end_ := e }

/-- Modelled from the spec: the `TimeFrame.start` setter.  Assigning a `start`
above the current bounded `end` raises `ValueError` (modelled as `none`). -/
def TimeFrame.trySetStart (tf : TimeFrame) (s : Option Int) : Option TimeFrame :=
  match s, tf.end_ with
  | some a, some b => if b < a then none else some { tf with start := s }
  | _, _ => some { tf with start := s }

/-- Modelled from the spec: `TimeFrame.__eq__` compares the two boundary
values (used by the `timeframe in sections` membership test of
`import_from_cache`). -/
def tfEq (a b : TimeFrame) : Bool :=
  a.start == b.start && a.end_ == b.end_

/-- Boolean well-formedness of a `TimeFrame` value: when both bounds are set,
`start <= end` (the invariant every really constructed `TimeFrame` keeps). -/
def tfValid (tf : TimeFrame) : Bool :=
  match tf.start, tf.end_ with
  | some a, some b => decide (a ≤ b)
  | _, _ => true

/-- One row of `GoodSectionsResults._data`: the chunk-start key (the row's
index value), the chunk `end`, and the list of detected sections. -/
structure ChunkRecord where
  key : Int
  end_ : Int
  sections : List TimeFrame
deriving DecidableEq, Repr

/-- The accumulator state of a `GoodSectionsResults` object:
`max_sample_period` (seconds) and the rows of `_data` in append order. -/
structure GoodSectionsResults where
  max_sample_period : Int
  data : List ChunkRecord
deriving DecidableEq, Repr

/-- `Results.append` as consumed by `GoodSectionsResults.append`: adds one
chunk record in caller-supplied order (no re-sorting). -/
def GoodSectionsResults.append (s : GoodSectionsResults) (r : ChunkRecord) :
    GoodSectionsResults :=
  { s with data := s.data ++ [r] }

/-- The concatenation of all rows' `sections` lists, in row order.  This is
the value of the Python local `sections` list built by `combined`: every
surviving interval object of every row is appended to it, and all mutations
go through objects shared between the output list and the rows. -/
def sectionsOf (recs : List ChunkRecord) : List TimeFrame :=
  (recs.map (fun r => r.sections)).flatten

/-- `sections[-1]` of the output list built so far (`none` when empty). -/
def lastSectionOf (recs : List ChunkRecord) : Option TimeFrame :=
  (sectionsOf recs).getLast?

/-- Apply `f` to the last element of a list (identity on `[]`). -/
def updateLastTF (f : TimeFrame → TimeFrame) : List TimeFrame → List TimeFrame
  | [] => []
  | [tf] => [f tf]
  | tf :: tf2 :: tfs => tf :: updateLastTF f (tf2 :: tfs)

/-- Mutate `sections[-1]` through the record that owns it: apply `f` to the
last section of the last record holding any section. -/
def updateLastSection (f : TimeFrame → TimeFrame) :
    List ChunkRecord → List ChunkRecord
  | [] => []
  | r :: rs =>
    if (lastSectionOf rs).isSome then r :: updateLastSection f rs
    else { r with sections := updateLastTF f r.sections } :: rs

/-- One iteration of the `combined` loop over `(index, row)`.  The
accumulator is `(done, end_date_of_prev_row)` where `done` holds the already
processed records (mutations included); the Python `sections` output list is
`sectionsOf done`.  `none` models an uncaught exception:
`row_sections[0]` on an empty list (`IndexError`), `sections[-1]` on an empty
output (`IndexError`), the `assert sections[-1].end is None`
(`AssertionError`), and the unguarded `sections[-1].end = row_sections[0].end`
assignment (`ValueError`). -/
def combinedStep (msp : Int) (acc : List ChunkRecord × Option Int)
    (r : ChunkRecord) : Option (List ChunkRecord × Option Int) :=
  let done := acc.1
  let endPrev := acc.2
  -- merge check: `end_date_of_prev_row is not None and
  --   end_date_of_prev_row - max_sample_period_td <= index <=
  --   end_date_of_prev_row and row_sections[0].start is None`
  let stitched : Option (List ChunkRecord × List TimeFrame) :=
    match endPrev with
    | none => some (done, r.sections)
    | some e =>
      if e - msp ≤ r.key ∧ r.key ≤ e then
        match r.sections with
        | [] => none  -- IndexError: row_sections[0] on an empty list
        | s0 :: rest =>
          if s0.start = none then
            match lastSectionOf done with
            | none => none  -- IndexError: sections[-1] on an empty list
            | some lastTf =>
              if lastTf.end_ = none then
                match lastTf.trySetEnd s0.end_ with
                | none => none  -- uncaught ValueError
                | some tf1 => some (updateLastSection (fun _ => tf1) done, rest)
              else none  -- AssertionError: sections[-1].end is not None
          else some (done, r.sections)
      else some (done, r.sections)
  match stitched with
  | none => none
  | some (done1, rowSecs1) =>
    -- `if sections and sections[-1].end is None:` close with
    -- end_date_of_prev_row, ignoring ValueError
    let done2 :=
      match lastSectionOf done1 with
      | some tf =>
        if tf.end_ = none then
          updateLastSection (fun t => (t.trySetEnd endPrev).getD t) done1
        else done1
      | none => done1
    -- `if row_sections and row_sections[0].start is None:` open at the
    -- chunk key, ignoring ValueError
    let rowSecs2 :=
      match rowSecs1 with
      | [] => rowSecs1
      | t0 :: rest =>
        if t0.start = none then ((t0.trySetStart (some r.key)).getD t0) :: rest
        else rowSecs1
    some (done2 ++ [{ r with sections := rowSecs2 }], some r.end_)

/-- The `for index, row in self._data.iterrows()` loop of `combined`. -/
def combinedLoop (msp : Int) :
    List ChunkRecord → List ChunkRecord × Option Int →
    Option (List ChunkRecord × Option Int)
  | [], acc => some acc
  | r :: rs, acc =>
    match combinedStep msp acc r with
    | none => none
    | some acc1 => combinedLoop msp rs acc1

/-- `GoodSectionsResults.combined`: merges good sections spanning adjacent
chunks.  Returns the produced interval list together with the mutated
accumulator state (`combined` mutates interval objects, pops merged first
intervals from rows, and finally marks the last produced interval).  `none`
models an uncaught exception inside the call. -/
def GoodSectionsResults.combined (s : GoodSectionsResults) :
    Option (List TimeFrame × GoodSectionsResults) :=
  match combinedLoop s.max_sample_period s.data ([], none) with
  | none => none
  | some (done, endPrev) =>
    if (sectionsOf done).isEmpty then
      some ([], { s with data := done })
    else
      -- `sections[-1].include_end = True`
      let done1 := updateLastSection (fun tf => { tf with include_end := true }) done
      match lastSectionOf done1 with
      | none => none  -- unreachable: the output list is non-empty
      | some tf =>
        if tf.end_ = none then
          -- `sections[-1].end = end_date_of_prev_row` (no try/except here)
          match tf.trySetEnd endPrev with
          | none => none  -- uncaught ValueError
          | some tf1 =>
            let done2 := updateLastSection (fun _ => tf1) done1
            some (sectionsOf done2, { s with data := done2 })
        else some (sectionsOf done1, { s with data := done1 })

/-- `GoodSectionsResults.unify` calls `warn(...)` and then the base
`Results.unify`.  The module's global scope is populated only by the imported
names of `goodsectionsresults.py` lines 1-6 plus the class itself. -/
def moduleScope : List String :=
  ["pd", "timedelta", "plt", "Results", "SECS_PER_DAY", "TimeFrame",
   "convert_none_to_nat", "GoodSectionsResults"]

/-- `GoodSectionsResults.unify(other)`.  The body first evaluates the name
`warn`; if the name is not bound in the module scope (it is not a Python
builtin either) the call raises `NameError` before anything else happens.
On success it would return the emitted warning text and the unchanged state
(the base `Results.unify` no-op passthrough). -/
def GoodSectionsResults.unify (s _other : GoodSectionsResults) :
    Except String (String × GoodSectionsResults) :=
  if "warn" ∈ moduleScope then
    Except.ok ("Not yet able to do unification of good sections results.", s)
  else
    Except.error "NameError: name warn is not defined"

/-- Modelled from the spec (the helper lives in `nilmtk.timeframe`, outside
`src/`): `convert_none_to_nat` encodes an unbounded bound as the `NaT`
sentinel.  Both `None` and `NaT` are modelled here as `Option.none`, so the
encoding is the identity on the model. -/
def convert_none_to_nat (x : Option Int) : Option Int := x

/-- One row of the flat cache table produced by `export_to_cache`: the
chunk-start index value and the columns `end`, `section_start`,
`section_end` (unbounded bounds carried as the `NaT` sentinel = `none`). -/
structure CacheRow where
  key : Int
  end_ : Int
  section_start : Option Int
  section_end : Option Int
deriving DecidableEq, Repr

/-- The cache rows contributed by one accumulator row: one `CacheRow` per
section, in section order, all carrying the chunk's index and `end`. -/
def exportRecordRows (r : ChunkRecord) : List CacheRow :=
  r.sections.map (fun sec =>
    ⟨r.key, r.end_, convert_none_to_nat sec.start, convert_none_to_nat sec.end_⟩)

/-- `GoodSectionsResults.export_to_cache`: one row per section, chunk order
then in-chunk section order; a row whose `sections` list is empty contributes
no cache row at all. -/
def GoodSectionsResults.export_to_cache (s : GoodSectionsResults) :
    List CacheRow :=
  (s.data.map exportRecordRows).flatten

/-- Insert a key into an ascending duplicate-free list of keys. -/
def insertSortedDistinct (x : Int) : List Int → List Int
  | [] => [x]
  | y :: ys =>
    if x < y then x :: y :: ys
    else if x = y then y :: ys
    else y :: insertSortedDistinct x ys

/-- The group keys of `cached_stat.groupby(level=0)`: the distinct index
values, in ascending order (pandas sorts group keys). -/
def sortedKeys (rows : List CacheRow) : List Int :=
  rows.foldl (fun acc row => insertSortedDistinct row.key acc) []

/-- Build the `TimeFrame(row['section_start'], row['section_end'])` list of
one accepted group, in row order; a constructor `ValueError` aborts. -/
def groupTimeFrames : List CacheRow → Option (List TimeFrame)
  | [] => some []
  | row :: rest =>
    match TimeFrame.mk? row.section_start row.section_end, groupTimeFrames rest with
    | some tf, some tfs => some (tf :: tfs)
    | _, _ => none

/-- Process one group of `import_from_cache`:
`assert group['end'].unique().size == 1`, build the chunk boundary
`TimeFrame(name, group['end'].iloc[0])`, test membership in the supplied
`sections`, and on success append the rebuilt record.  `none` models an
uncaught exception (`AssertionError`, or `ValueError` from a `TimeFrame`
constructor). -/
def importGroup (bds : List TimeFrame) (rows : List CacheRow) (k : Int)
    (recs : List ChunkRecord) : Option (List ChunkRecord) :=
  match rows.filter (fun row => row.key == k) with
  | [] => some recs
  | g0 :: grest =>
    if (g0 :: grest).all (fun row => row.end_ == g0.end_) then
      match TimeFrame.mk? (some k) (some g0.end_) with
      | none => none  -- ValueError constructing the boundary TimeFrame
      | some tfB =>
        if bds.any (fun b => tfEq b tfB) then
          match groupTimeFrames (g0 :: grest) with
          | none => none
          | some tfs => some (recs ++ [⟨k, g0.end_, tfs⟩])
        else some recs
    else none  -- AssertionError: the group's end values disagree

/-- The `for name, group in grouped_by_index` loop of `import_from_cache`. -/
def importLoop (bds : List TimeFrame) (rows : List CacheRow) :
    List Int → List ChunkRecord → Option (List ChunkRecord)
  | [], recs => some recs
  | k :: ks, recs =>
    match importGroup bds rows k recs with
    | none => none
    | some recs1 => importLoop bds rows ks recs1

/-- `GoodSectionsResults.import_from_cache(cached_stat, sections)`: group the
cached rows by index key (ascending), and append every group whose chunk
boundary is a member of `sections` onto `self._data`. -/
def GoodSectionsResults.import_from_cache (s : GoodSectionsResults)
    (cached : List CacheRow) (bds : List TimeFrame) :
    Option GoodSectionsResults :=
  match importLoop bds cached (sortedKeys cached) s.data with
  | none => none
  | some recs => some { s with data := recs }

/-- The chunk boundaries of an accumulator: one `TimeFrame(key, end)` per
row, as the statistics pipeline supplies them to `import_from_cache`. -/
def chunkBoundariesOf (s : GoodSectionsResults) : List TimeFrame :=
  s.data.map (fun r => ⟨some r.key, some r.end_, false⟩)

/-- The silent-skip premise for one cache group: its rows agree on `end`, its
boundary `TimeFrame` is constructible, and its boundary is not a member of
the supplied chunk boundaries. -/
def staleGroupOK (rows : List CacheRow) (bds : List TimeFrame) (k : Int) : Bool :=
  match rows.filter (fun row => row.key == k) with
  | [] => true
  | g0 :: grest =>
    (g0 :: grest).all (fun row => row.end_ == g0.end_) &&
    decide (k ≤ g0.end_) &&
    !(bds.any (fun b => tfEq b ⟨some k, some g0.end_, false⟩))

/-! ### Concrete fixture states used by individual claims -/

/-- C1 counterexample accumulator: `msp = 10`; a chunk with an open-ended
section, then a chunk with an empty `sections` list, then a chunk whose first
section is open-started. -/
def cexC1 : GoodSectionsResults :=
  ⟨10, [⟨0, 100, [⟨some 2, none, false⟩]⟩,
        ⟨50, 60, []⟩,
        ⟨95, 200, [⟨none, some 150, false⟩]⟩]⟩

/-- The accumulator rebuilt from `cexC1`'s cache: the empty-sections chunk
`[50, 60]` is gone. -/
def cexC1rt : GoodSectionsResults :=
  ⟨10, [⟨0, 100, [⟨some 2, none, false⟩]⟩,
        ⟨95, 200, [⟨none, some 150, false⟩]⟩]⟩

/-- C2 failing input: the spec's own adjacency scenario, `msp = 1`,
chunks `[0,10]` with `[(2, open-end)]` and `[10,20]` with `[(open, 15)]`. -/
def stC2 : GoodSectionsResults :=
  ⟨1, [⟨0, 10, [⟨some 2, none, false⟩]⟩, ⟨10, 20, [⟨none, some 15, false⟩]⟩]⟩

/-- C3 counterexample: `delta = 1 = max_sample_period` (chunk B starts at
`11`, chunk A ends at `10`). -/
def cexC3 : GoodSectionsResults :=
  ⟨1, [⟨0, 10, [⟨some 2, none, false⟩]⟩, ⟨11, 20, [⟨none, some 15, false⟩]⟩]⟩

/-- C6 counterexample input (same value as the spec's adjacency scenario). -/
def cexC6 : GoodSectionsResults :=
  ⟨1, [⟨0, 10, [⟨some 2, none, false⟩]⟩, ⟨10, 20, [⟨none, some 15, false⟩]⟩]⟩

/-- C8 failing input: a second chunk with an empty `sections` list whose key
`10` satisfies `end_prev - msp <= key <= end_prev` (`9 <= 10 <= 10`). -/
def stC8 : GoodSectionsResults :=
  ⟨1, [⟨0, 10, [⟨some 2, some 8, false⟩]⟩, ⟨10, 20, []⟩]⟩

/-- C9 counterexample cache table: one group (key `0`) whose two rows
disagree on `end` (`10` vs `20`); the group is stale for any boundary list
not containing `(0, 10)`. -/
def cexC9 : List CacheRow :=
  [⟨0, 10, some 1, some 2⟩, ⟨0, 20, some 3, some 4⟩]

/-- C9 witness cache table: one end-consistent group, stale w.r.t. `[]`. -/
def staleC9 : List CacheRow := [⟨0, 10, some 1, some 2⟩]

/-- C3 witness accumulator: the spec's concrete merge scenario
(`delta = 0`). -/
def stC3w : GoodSectionsResults :=
  ⟨1, [⟨0, 10, [⟨some 2, none, false⟩]⟩, ⟨10, 20, [⟨none, some 15, false⟩]⟩]⟩

/-- C4 witness accumulator: the spec's concrete gap scenario
(`delta = 2 > 1`). -/
def stC4w : GoodSectionsResults :=
  ⟨1, [⟨0, 10, [⟨some 2, none, false⟩]⟩, ⟨12, 20, [⟨none, some 15, false⟩]⟩]⟩

/-- C5 witness accumulator: one chunk with one open-ended section. -/
def stC5w : GoodSectionsResults := ⟨0, [⟨0, 10, [⟨some 2, none, false⟩]⟩]⟩

/-- C1 amended-claim witness accumulator: strictly sorted keys, every
`sections` list non-empty, every stored interval valid with
`include_end = false`. -/
def stC1w : GoodSectionsResults :=
  ⟨1, [⟨0, 10, [⟨some 2, none, false⟩]⟩,
       ⟨10, 20, [⟨none, some 15, false⟩, ⟨some 17, some 19, false⟩]⟩]⟩

/-- C10 witness accumulator: chunk `[0,10]` detected no good sections. -/
def stC10w : GoodSectionsResults :=
  ⟨1, [⟨0, 10, []⟩, ⟨12, 20, [⟨some 13, some 14, false⟩]⟩]⟩

/-- Frame relation between a pre-call record and its post-`combined` version:
key and chunk end unchanged, and the `sections` list kept its length or lost
exactly one element (the merged-away first interval). -/
def relFrame (r r1 : ChunkRecord) : Prop :=
  r1.key = r.key ∧ r1.end_ = r.end_ ∧
    (r1.sections.length = r.sections.length ∨
      r1.sections.length + 1 = r.sections.length)

/-- Strict frame relation: key, chunk end and `sections` length all
unchanged (what `updateLastSection` guarantees). -/
def fpFrame (r r1 : ChunkRecord) : Prop :=
  r1.key = r.key ∧ r1.end_ = r.end_ ∧
    r1.sections.length = r.sections.length

/-! ### Claim theorems -/

/-- C1 (counterexample).  The cache round trip does not reproduce
`combined()`'s output for every accumulator built by `append`: on `cexC1`
(whose middle chunk has an empty `sections` list and is therefore dropped by
`export_to_cache`) the original `combined()` yields two intervals
`(2,100)` and `(95,150]`, while the re-imported accumulator's `combined()`
yields the single interval `(2,150]`. -/
theorem cache_roundtrip_cex :
    GoodSectionsResults.import_from_cache ⟨10, []⟩ cexC1.export_to_cache
        (chunkBoundariesOf cexC1) = some cexC1rt ∧
    cexC1.combined.map Prod.fst =
      some [⟨some 2, some 100, false⟩, ⟨some 95, some 150, true⟩] ∧
    cexC1rt.combined.map Prod.fst = some [⟨some 2, some 150, true⟩] ∧
    ([⟨some 2, some 100, false⟩, ⟨some 95, some 150, true⟩] : List TimeFrame) ≠
      [⟨some 2, some 150, true⟩] := by
  decide

/-- C2 (code bug).  `combined()` is not idempotent on this code: on the
spec's own adjacency scenario the first call returns `[(2,15]]` but pops the
merged section out of the second chunk's stored `sections` list, so the
second call reaches `row_sections[0]` on an empty list and raises
`IndexError` (the non-emptiness conjunct the spec describes is missing at
line 53). -/
theorem combined_twice_fails :
    stC2.combined.map Prod.fst = some [⟨some 2, some 15, true⟩] ∧
    stC2.combined.map (fun p => p.2.combined) = some none := by
  decide

/-- C3 (counterexample).  With `delta = 1 <= max_sample_period = 1` (chunk B
starting at `11`, chunk A ending at `10`) `combined()` yields TWO intervals,
not the single merged interval the claim predicts: the code merges only when
`prev.end - msp <= key <= prev.end`, which fails for every positive
`delta`. -/
theorem adjacency_merge_cex :
    cexC3.combined.map Prod.fst =
      some [⟨some 2, some 10, false⟩, ⟨some 11, some 15, true⟩] ∧
    cexC3.max_sample_period = 1 ∧
    (cexC3.data.map (fun r => r.key)) = [0, 11] := by
  decide

/-- C6 (counterexample).  `combined()` does not leave every chunk record's
`sections` list unchanged as a container: on `cexC6` the boundary stitch
pops the merged first interval out of the second record, shrinking its
`sections` list from length `1` to length `0`. -/
theorem frame_cex :
    cexC6.combined.map
        (fun p => p.2.data.map (fun r => (r.key, r.end_, r.sections.length))) =
      some [(0, 10, 1), (10, 20, 0)] ∧
    cexC6.data.map (fun r => (r.key, r.end_, r.sections.length)) =
      [(0, 10, 1), (10, 20, 1)] := by
  decide

/-- C7 (code bug).  `unify` never emits its warning and never reaches the
base no-op: the module imports of `goodsectionsresults.py` never bind the
name `warn`, so every call raises `NameError`. -/
theorem unify_raises_nameerror (s other : GoodSectionsResults) :
    s.unify other = Except.error "NameError: name warn is not defined" := by
  rfl

/-- C8 (code bug).  The boundary stitch test is NOT guarded by a
non-emptiness conjunct: on `stC8`, whose second record has an empty
`sections` list and satisfies the adjacency condition (`9 <= 10 <= 10`),
`combined()` evaluates `row_sections[0]` on the empty list and raises
`IndexError` instead of processing the record. -/
theorem empty_row_adjacency_fails :
    stC8.combined = none ∧
    stC8.data.map (fun r => (r.key, r.end_, r.sections.length)) =
      [(0, 10, 1), (10, 20, 0)] ∧
    stC8.max_sample_period = 1 := by
  decide

/-- C9 (counterexample).  A stale chunk group is not always silently
discarded: `import_from_cache` runs the `end`-consistency assertion before
the membership test, so the stale group of `cexC9` (two rows with `end` `10`
and `20`, boundary absent from the empty boundary list) raises
`AssertionError` instead of being skipped. -/
theorem stale_skip_cex :
    GoodSectionsResults.import_from_cache ⟨0, []⟩ cexC9 [] = none ∧
    ([] : List TimeFrame).any (fun b => tfEq b ⟨some 0, some 10, false⟩) = false := by
  decide

/-- C3 (amended).  Adjacency merge as the code implements it: chunk A ending
at `T` with an open-ended trailing interval starting at `sA`, chunk B
starting at `keyB` with `T - max_sample_period <= keyB <= T` (i.e.
`delta = keyB - T` in `[-msp, 0]`, not the claimed `delta <= msp`) and first
interval open-started ending at `U >= sA`: `combined()` yields the single
merged interval `(sA, U]` with `include_end` true. -/
theorem adjacency_merge_amended (keyA sA T keyB U eB msp : Int)
    (hadj1 : T - msp ≤ keyB) (hadj2 : keyB ≤ T) (hsa : sA ≤ U) :
    (GoodSectionsResults.combined
        ⟨msp, [⟨keyA, T, [⟨some sA, none, false⟩]⟩,
               ⟨keyB, eB, [⟨none, some U, false⟩]⟩]⟩).map Prod.fst =
      some [⟨some sA, some U, true⟩] := by
  have h1 : T - msp ≤ keyB ∧ keyB ≤ T := ⟨hadj1, hadj2⟩
  have h2 : ¬(U < sA) := by omega
  simp [GoodSectionsResults.combined, combinedLoop, combinedStep,
    lastSectionOf, sectionsOf, updateLastSection, updateLastTF,
    TimeFrame.trySetEnd, TimeFrame.trySetStart, h1, h2]

/-- C4 (confirmed).  Gap non-merge: same two-chunk setup but with
`delta = keyB - T > max_sample_period >= 0`: `combined()` yields two separate
intervals, the first closed at chunk A's `end` value `T`, the second opened
at chunk B's key `keyB` (the interval bounds `sA <= T` and `keyB <= U` are
the data-model invariants of the setup). -/
theorem gap_non_merge (keyA sA T keyB U eB msp : Int)
    (hmsp : 0 ≤ msp) (hgap : T + msp < keyB) (hsa : sA ≤ T) (hU : keyB ≤ U) :
    (GoodSectionsResults.combined
        ⟨msp, [⟨keyA, T, [⟨some sA, none, false⟩]⟩,
               ⟨keyB, eB, [⟨none, some U, false⟩]⟩]⟩).map Prod.fst =
      some [⟨some sA, some T, false⟩, ⟨some keyB, some U, true⟩] := by
  have h1 : ¬(keyB ≤ T) := by omega
  have h2 : ¬(T < sA) := by omega
  have h3 : ¬(U < keyB) := by omega
  simp [GoodSectionsResults.combined, combinedLoop, combinedStep,
    lastSectionOf, sectionsOf, updateLastSection, updateLastTF,
    TimeFrame.trySetEnd, TimeFrame.trySetStart, h1, h2, h3]

/-- Witness for `adjacency_merge_amended` at the spec's concrete scenario:
chunks `[0,10]` / `[10,20]`, `msp = 1`, sections `[(2, open)]` and
`[(open, 15)]` give the single interval `(2, 15]` with `include_end`. -/
theorem adjacency_merge_amended_witness :
    ((10 : Int) - 1 ≤ 10 ∧ (10 : Int) ≤ 10 ∧ (2 : Int) ≤ 15) ∧
    stC3w.combined.map Prod.fst = some [⟨some 2, some 15, true⟩] :=
  ⟨by decide, adjacency_merge_amended 0 2 10 10 15 20 1 (by decide) (by decide)
    (by decide)⟩

/-- Witness for `gap_non_merge` at the spec's concrete scenario: chunk B
starting at `12` (`delta = 2 > 1`) gives `[(2,10), (12,15]]`. -/
theorem gap_non_merge_witness :
    ((0 : Int) ≤ 1 ∧ (10 : Int) + 1 < 12 ∧ (2 : Int) ≤ 10 ∧ (12 : Int) ≤ 15) ∧
    stC4w.combined.map Prod.fst =
      some [⟨some 2, some 10, false⟩, ⟨some 12, some 15, true⟩] :=
  ⟨by decide, gap_non_merge 0 2 10 12 15 20 1 (by decide) (by decide) (by decide)
    (by decide)⟩

/-! ### Helper lemmas about the merge-engine primitives -/

theorem updateLastTF_cons_of_ne (f : TimeFrame → TimeFrame) (a : TimeFrame)
    (l : List TimeFrame) (h : l ≠ []) :
    updateLastTF f (a :: l) = a :: updateLastTF f l := by
  cases l with
  | nil => exact absurd rfl h
  | cons b l' => rfl

theorem updateLastTF_append (f : TimeFrame → TimeFrame) (l1 l2 : List TimeFrame)
    (h : l2 ≠ []) :
    updateLastTF f (l1 ++ l2) = l1 ++ updateLastTF f l2 := by
  induction l1 with
  | nil => rfl
  | cons a l1 ih =>
    have hne : l1 ++ l2 ≠ [] := by
      cases l2 with
      | nil => exact absurd rfl h
      | cons b l2' => simp
    simp only [List.cons_append, updateLastTF_cons_of_ne f a (l1 ++ l2) hne, ih]

theorem length_updateLastTF (f : TimeFrame → TimeFrame) (l : List TimeFrame) :
    (updateLastTF f l).length = l.length := by
  induction l with
  | nil => rfl
  | cons a l ih =>
    cases l with
    | nil => rfl
    | cons b l' =>
      simp only [updateLastTF, List.length_cons] at *
      exact congrArg (· + 1) ih

theorem updateLastTF_ne_nil (f : TimeFrame → TimeFrame) (l : List TimeFrame)
    (h : l ≠ []) : updateLastTF f l ≠ [] := by
  intro hnil
  apply h
  have := length_updateLastTF f l
  rw [hnil] at this
  exact List.length_eq_zero.mp this.symm

theorem getLast?_updateLastTF (f : TimeFrame → TimeFrame) (l : List TimeFrame) :
    (updateLastTF f l).getLast? = l.getLast?.map f := by
  induction l with
  | nil => rfl
  | cons a l ih =>
    cases l with
    | nil => rfl
    | cons b l' =>
      rw [updateLastTF_cons_of_ne f a (b :: l') (by simp), List.getLast?_cons_cons]
      obtain ⟨x, xs, hx⟩ :=
        List.exists_cons_of_ne_nil (updateLastTF_ne_nil f (b :: l') (by simp))
      rw [hx, List.getLast?_cons_cons, ← hx]
      exact ih

theorem sectionsOf_nil : sectionsOf [] = [] := rfl

theorem sectionsOf_cons (r : ChunkRecord) (rs : List ChunkRecord) :
    sectionsOf (r :: rs) = r.sections ++ sectionsOf rs := by
  simp [sectionsOf]

theorem sectionsOf_append (a b : List ChunkRecord) :
    sectionsOf (a ++ b) = sectionsOf a ++ sectionsOf b := by
  simp [sectionsOf]

theorem sectionsOf_updateLastSection (f : TimeFrame → TimeFrame)
    (recs : List ChunkRecord) :
    sectionsOf (updateLastSection f recs) = updateLastTF f (sectionsOf recs) := by
  induction recs with
  | nil => rfl
  | cons r rs ih =>
    by_cases h : (lastSectionOf rs).isSome
    · have hne : sectionsOf rs ≠ [] := by
        intro hnil
        rw [lastSectionOf, hnil] at h
        simp at h
      rw [updateLastSection, if_pos h, sectionsOf_cons, ih, sectionsOf_cons,
        updateLastTF_append f _ _ hne]
    · have hnil : sectionsOf rs = [] := by
        rw [lastSectionOf] at h
        simpa using h
      rw [updateLastSection, if_neg h, sectionsOf_cons, sectionsOf_cons, hnil]
      simp
  
theorem lastSectionOf_updateLastSection (f : TimeFrame → TimeFrame)
    (recs : List ChunkRecord) :
    lastSectionOf (updateLastSection f recs) = (lastSectionOf recs).map f := by
  rw [lastSectionOf, lastSectionOf, sectionsOf_updateLastSection,
    getLast?_updateLastTF]

theorem combinedStep_endPrev (msp : Int) (acc : List ChunkRecord × Option Int)
    (r : ChunkRecord) (acc1 : List ChunkRecord × Option Int)
    (h : combinedStep msp acc r = some acc1) : acc1.2 = some r.end_ := by
  unfold combinedStep at h
  dsimp only at h
  split at h
  · exact absurd h (by simp)
  · simp only [Option.some.injEq] at h
    rw [← h]

theorem combinedLoop_endPrev (msp : Int) (rs : List ChunkRecord)
    (acc : List ChunkRecord × Option Int) (done1 : List ChunkRecord)
    (ep1 : Option Int) (h : combinedLoop msp rs acc = some (done1, ep1)) :
    ep1 = ((rs.getLast?).map (fun r => some r.end_)).getD acc.2 := by
  induction rs generalizing acc with
  | nil =>
    simp only [combinedLoop, Option.some.injEq] at h
    subst h
    rfl
  | cons r rs' ih =>
    rw [combinedLoop] at h
    cases hstep : combinedStep msp acc r with
    | none => rw [hstep] at h; exact absurd h (by simp)
    | some acc1 =>
      rw [hstep] at h
      have hep := combinedStep_endPrev msp acc r acc1 hstep
      have := ih acc1 h
      cases rs' with
      | nil => simpa [hep] using this
      | cons r2 rs'' => simpa [List.getLast?_cons_cons] using this

theorem trySetEnd_fields (tf : TimeFrame) (e : Option Int) (tf1 : TimeFrame)
    (h : tf.trySetEnd e = some tf1) :
    tf1.start = tf.start ∧ tf1.end_ = e ∧ tf1.include_end = tf.include_end := by
  unfold TimeFrame.trySetEnd at h
  split at h
  · split at h
    · exact absurd h (by simp)
    · injection h with h1
      rw [← h1]
      exact ⟨rfl, rfl, rfl⟩
  · injection h with h1
    rw [← h1]
    exact ⟨rfl, rfl, rfl⟩

theorem lastSectionOf_isSome_of_ne_nil (done : List ChunkRecord)
    (h : sectionsOf done ≠ []) : ∃ tfL, lastSectionOf done = some tfL := by
  rw [lastSectionOf]
  exact Option.isSome_iff_exists.mp (List.getLast?_isSome.mpr h)

/-- C5 (confirmed).  Final inclusivity: whenever `combined()` returns a
non-empty interval list, the last interval carries `include_end = true`; and
if the last produced interval's `end` was still unbounded when the chunk loop
finished, the returned last interval's `end` equals the `end` value of the
last processed chunk record. -/
theorem final_inclusivity (s : GoodSectionsResults) (out : List TimeFrame)
    (post : GoodSectionsResults) (done : List ChunkRecord) (ep : Option Int)
    (tf0 : TimeFrame)
    (hloop : combinedLoop s.max_sample_period s.data ([], none) = some (done, ep))
    (hc : s.combined = some (out, post)) (hne : out ≠ []) :
    (out.getLast hne).include_end = true ∧
    (lastSectionOf done = some tf0 → tf0.end_ = none →
      ∃ r, s.data.getLast? = some r ∧ (out.getLast hne).end_ = some r.end_) := by
  have hdata : s.data ≠ [] := by
    intro hnil
    rw [GoodSectionsResults.combined, hnil] at hc
    simp only [combinedLoop, sectionsOf_nil, List.isEmpty_nil, if_true,
      Option.some.injEq, Prod.mk.injEq] at hc
    exact hne hc.1.symm
  obtain ⟨r, hr⟩ := Option.isSome_iff_exists.mp (List.getLast?_isSome.mpr hdata)
  have hep : ep = some r.end_ := by
    have := combinedLoop_endPrev s.max_sample_period s.data ([], none) done ep hloop
    rw [hr] at this
    simpa using this
  rw [GoodSectionsResults.combined, hloop] at hc
  dsimp only at hc
  by_cases hemp : (sectionsOf done).isEmpty
  · rw [if_pos hemp] at hc
    simp only [Option.some.injEq, Prod.mk.injEq] at hc
    exact absurd hc.1.symm hne
  · rw [if_neg hemp] at hc
    have hsne : sectionsOf done ≠ [] := by simpa [List.isEmpty_iff] using hemp
    obtain ⟨tfL, htfL⟩ := lastSectionOf_isSome_of_ne_nil done hsne
    simp only [lastSectionOf_updateLastSection, htfL, Option.map_some'] at hc
    by_cases hE : tfL.end_ = none
    · rw [if_pos (by simpa using hE)] at hc
      cases htry : TimeFrame.trySetEnd { tfL with include_end := true } ep with
      | none =>
        simp only [htry] at hc
        exact Option.noConfusion hc
      | some tf1 =>
        simp only [htry, Option.some.injEq, Prod.mk.injEq] at hc
        have hout : out = sectionsOf (updateLastSection (fun _ => tf1)
            (updateLastSection (fun tf => { tf with include_end := true }) done)) :=
          hc.1.symm
        have hlastOut : out.getLast? = some tf1 := by
          rw [hout, ← lastSectionOf, lastSectionOf_updateLastSection,
            lastSectionOf_updateLastSection, htfL]
          rfl
        have hgl : out.getLast hne = tf1 := by
          rw [List.getLast?_eq_getLast out hne] at hlastOut
          injection hlastOut
        obtain ⟨_, hf2, hf3⟩ :=
          trySetEnd_fields { tfL with include_end := true } ep tf1 htry
        constructor
        · rw [hgl, hf3]
        · intro _ _
          exact ⟨r, hr, by rw [hgl, hf2, hep]⟩
    · rw [if_neg (by simpa using hE)] at hc
      simp only [Option.some.injEq, Prod.mk.injEq] at hc
      have hout : out = sectionsOf
          (updateLastSection (fun tf => { tf with include_end := true }) done) :=
        hc.1.symm
      have hlastOut : out.getLast? = some { tfL with include_end := true } := by
        rw [hout, ← lastSectionOf, lastSectionOf_updateLastSection, htfL]
        rfl
      have hgl : out.getLast hne = { tfL with include_end := true } := by
        rw [List.getLast?_eq_getLast out hne] at hlastOut
        injection hlastOut
      constructor
      · rw [hgl]
      · intro hlast hEnd
        rw [htfL] at hlast
        injection hlast with hlast1
        exact absurd (hlast1 ▸ hEnd) hE

/-- Witness for `final_inclusivity`: one chunk `[0,10]` with section
`(2, open)` produces `[(2,10]]`, whose last interval is end-inclusive and
closed at the chunk's `end` value `10`. -/
theorem final_inclusivity_witness :
    (([⟨some 2, some 10, true⟩] : List TimeFrame).getLast
        (by decide)).include_end = true ∧
    (lastSectionOf [⟨0, 10, [⟨some 2, none, false⟩]⟩] =
        some ⟨some 2, none, false⟩ →
      (⟨some 2, none, false⟩ : TimeFrame).end_ = none →
      ∃ r, stC5w.data.getLast? = some r ∧
        (([⟨some 2, some 10, true⟩] : List TimeFrame).getLast
            (by decide)).end_ = some r.end_) :=
  final_inclusivity stC5w [⟨some 2, some 10, true⟩]
    ⟨0, [⟨0, 10, [⟨some 2, some 10, true⟩]⟩]⟩
    [⟨0, 10, [⟨some 2, none, false⟩]⟩] (some 10) ⟨some 2, none, false⟩
    (by decide) (by decide) (by decide)

theorem forall2_append_split {α β : Type} {R : α → β → Prop} :
    ∀ {l1 l2 : List α} {m : List β}, List.Forall₂ R (l1 ++ l2) m →
      ∃ m1 m2, m = m1 ++ m2 ∧ List.Forall₂ R l1 m1 ∧ List.Forall₂ R l2 m2 := by
  intro l1
  induction l1 with
  | nil => exact fun h => ⟨[], _, rfl, List.Forall₂.nil, h⟩
  | cons a l1 ih =>
    intro l2 m h
    cases h with
    | cons hab htail =>
      obtain ⟨m1, m2, rfl, h1, h2⟩ := ih htail
      exact ⟨_ :: m1, m2, rfl, List.Forall₂.cons hab h1, h2⟩

theorem forall2_comp {α β γ : Type} {P : α → β → Prop} {Q : β → γ → Prop}
    {R : α → γ → Prop} (hPQR : ∀ a b c, P a b → Q b c → R a c) :
    ∀ {l1 : List α} {l2 : List β} {l3 : List γ},
      List.Forall₂ P l1 l2 → List.Forall₂ Q l2 l3 → List.Forall₂ R l1 l3 := by
  intro l1 l2 l3 h12
  induction h12 generalizing l3 with
  | nil => intro h23; cases h23; exact List.Forall₂.nil
  | cons hab htail ih =>
    intro h23
    cases h23 with
    | cons hbc h23tail => exact List.Forall₂.cons (hPQR _ _ _ hab hbc) (ih h23tail)

theorem fpFrame_refl (r : ChunkRecord) : fpFrame r r := ⟨rfl, rfl, rfl⟩

theorem forall2_fpFrame_refl (recs : List ChunkRecord) :
    List.Forall₂ fpFrame recs recs :=
  List.forall₂_same.mpr fun r _ => fpFrame_refl r

theorem fpFrame_trans (a b c : ChunkRecord) (h1 : fpFrame a b) (h2 : fpFrame b c) :
    fpFrame a c :=
  ⟨h2.1.trans h1.1, h2.2.1.trans h1.2.1, h2.2.2.trans h1.2.2⟩

theorem relFrame_fpFrame (a b c : ChunkRecord) (h1 : relFrame a b)
    (h2 : fpFrame b c) : relFrame a c := by
  obtain ⟨k1, e1, hl1⟩ := h1
  obtain ⟨k2, e2, hl2⟩ := h2
  refine ⟨k2.trans k1, e2.trans e1, ?_⟩
  cases hl1 with
  | inl hl => exact Or.inl (hl2.trans hl)
  | inr hl => exact Or.inr (by omega)

theorem fpFrame_updateLastSection (f : TimeFrame → TimeFrame)
    (recs : List ChunkRecord) :
    List.Forall₂ fpFrame recs (updateLastSection f recs) := by
  induction recs with
  | nil => exact List.Forall₂.nil
  | cons r rs ih =>
    rw [updateLastSection]
    split
    · exact List.Forall₂.cons (fpFrame_refl r) ih
    · exact List.Forall₂.cons ⟨rfl, rfl, length_updateLastTF f r.sections⟩
        (forall2_fpFrame_refl rs)

theorem combinedStep_frame (msp : Int) (done : List ChunkRecord) (ep : Option Int)
    (r : ChunkRecord) (acc1 : List ChunkRecord × Option Int)
    (h : combinedStep msp (done, ep) r = some acc1) :
    ∃ dK rNew, acc1.1 = dK ++ [rNew] ∧ List.Forall₂ fpFrame done dK ∧
      relFrame r rNew := by
  unfold combinedStep at h
  dsimp only at h
  split at h
  · exact Option.noConfusion h
  · rename_i st done1 rowSecs1 heq
    have hfacts : List.Forall₂ fpFrame done done1 ∧
        (rowSecs1.length = r.sections.length ∨
          rowSecs1.length + 1 = r.sections.length) := by
      clear h
      split at heq
      · injection heq with heq1
        rw [Prod.mk.injEq] at heq1
        obtain ⟨rfl, rfl⟩ := heq1
        exact ⟨forall2_fpFrame_refl done, Or.inl rfl⟩
      · split at heq
        · split at heq
          · exact Option.noConfusion heq
          · rename_i hsec
            split at heq
            · split at heq
              · exact Option.noConfusion heq
              · split at heq
                · split at heq
                  · exact Option.noConfusion heq
                  · injection heq with heq1
                    rw [Prod.mk.injEq] at heq1
                    obtain ⟨rfl, rfl⟩ := heq1
                    refine ⟨fpFrame_updateLastSection _ done, Or.inr ?_⟩
                    rw [hsec]
                    rfl
                · exact Option.noConfusion heq
            · injection heq with heq1
              rw [Prod.mk.injEq] at heq1
              obtain ⟨rfl, rfl⟩ := heq1
              exact ⟨forall2_fpFrame_refl done, Or.inl rfl⟩
        · injection heq with heq1
          rw [Prod.mk.injEq] at heq1
          obtain ⟨rfl, rfl⟩ := heq1
          exact ⟨forall2_fpFrame_refl done, Or.inl rfl⟩
    injection h with h1
    subst h1
    dsimp only
    refine ⟨_, _, rfl, ?_, ?_⟩
    · split
      · split
        · exact forall2_comp fpFrame_trans hfacts.1 (fpFrame_updateLastSection _ done1)
        · exact hfacts.1
      · exact hfacts.1
    · refine ⟨rfl, rfl, ?_⟩
      dsimp only
      have hlen2 : (match rowSecs1 with
          | [] => rowSecs1
          | t0 :: rest =>
            if t0.start = none then (t0.trySetStart (some r.key)).getD t0 :: rest
            else rowSecs1).length = rowSecs1.length := by
        split
        · rfl
        · split
          · simp
          · rfl
      rw [hlen2]
      exact hfacts.2

theorem combinedLoop_frame (msp : Int) (rs : List ChunkRecord) :
    ∀ (done : List ChunkRecord) (ep : Option Int) (done1 : List ChunkRecord)
      (ep1 : Option Int), combinedLoop msp rs (done, ep) = some (done1, ep1) →
      ∃ dK rsK, done1 = dK ++ rsK ∧ List.Forall₂ fpFrame done dK ∧
        List.Forall₂ relFrame rs rsK := by
  induction rs with
  | nil =>
    intro done ep done1 ep1 h
    simp only [combinedLoop, Option.some.injEq, Prod.mk.injEq] at h
    exact ⟨done, [], by rw [← h.1, List.append_nil], forall2_fpFrame_refl done,
      List.Forall₂.nil⟩
  | cons r rs' ih =>
    intro done ep done1 ep1 h
    rw [combinedLoop] at h
    cases hstep : combinedStep msp (done, ep) r with
    | none => rw [hstep] at h; exact Option.noConfusion h
    | some acc1 =>
      rw [hstep] at h
      obtain ⟨a1, a2⟩ := acc1
      obtain ⟨dK0, rNew, hsplit, hfp0, hrel0⟩ :=
        combinedStep_frame msp done ep r (a1, a2) hstep
      dsimp only at hsplit
      subst hsplit
      obtain ⟨dK1, rsK1, rfl, hfp1, hrel1⟩ := ih (dK0 ++ [rNew]) a2 done1 ep1 h
      obtain ⟨p, q, rfl, hp, hq⟩ := forall2_append_split hfp1
      cases hq with
      | @cons a b l1 l2 hx hnil =>
        cases hnil
        refine ⟨p, b :: rsK1, by simp, ?_, ?_⟩
        · exact forall2_comp fpFrame_trans hfp0 hp
        · exact List.Forall₂.cons (relFrame_fpFrame _ _ _ hrel0 hx) hrel1

/-- C6 (amended).  Frame condition of `combined()` as the code implements
it: every chunk record keeps its key and its `end` value, and its `sections`
list either keeps its length or loses exactly its first element (popped by
the boundary stitch); only interval objects (and that one pop) change. -/
theorem combined_frame (s : GoodSectionsResults) (out : List TimeFrame)
    (post : GoodSectionsResults) (hc : s.combined = some (out, post)) :
    List.Forall₂ relFrame s.data post.data := by
  rw [GoodSectionsResults.combined] at hc
  cases hloop : combinedLoop s.max_sample_period s.data ([], none) with
  | none => rw [hloop] at hc; exact Option.noConfusion hc
  | some acc =>
    rw [hloop] at hc
    obtain ⟨done, ep⟩ := acc
    obtain ⟨dK, rsK, rfl, hfp, hrel⟩ :=
      combinedLoop_frame s.max_sample_period s.data [] none done ep hloop
    cases hfp
    have hrel2 : ∀ (post1 : List ChunkRecord),
        List.Forall₂ fpFrame rsK post1 → List.Forall₂ relFrame s.data post1 :=
      fun post1 hfp1 => forall2_comp relFrame_fpFrame hrel hfp1
    dsimp only at hc
    split at hc
    · injection hc with hc1
      rw [Prod.mk.injEq] at hc1
      rw [← hc1.2]
      exact hrel2 rsK (forall2_fpFrame_refl rsK)
    · split at hc
      · exact Option.noConfusion hc
      · split at hc
        · split at hc
          · exact Option.noConfusion hc
          · injection hc with hc1
            rw [Prod.mk.injEq] at hc1
            rw [← hc1.2]
            exact hrel2 _ (forall2_comp fpFrame_trans
              (fpFrame_updateLastSection _ rsK) (fpFrame_updateLastSection _ _))
        · injection hc with hc1
          rw [Prod.mk.injEq] at hc1
          rw [← hc1.2]
          exact hrel2 _ (fpFrame_updateLastSection _ rsK)

/-- Witness for `combined_frame`: on the adjacency scenario the two records
keep their keys (`0`, `10`) and ends (`10`, `20`); the first keeps one
section, the second loses its single (merged) section. -/
theorem combined_frame_witness :
    List.Forall₂ relFrame cexC6.data
      [⟨0, 10, [⟨some 2, some 15, true⟩]⟩, ⟨10, 20, []⟩] :=
  combined_frame cexC6 [⟨some 2, some 15, true⟩]
    ⟨1, [⟨0, 10, [⟨some 2, some 15, true⟩]⟩, ⟨10, 20, []⟩]⟩ (by decide)

/-! ### Helper lemmas about the cache codec -/

theorem mk?_of_valid (tf : TimeFrame) (hval : tfValid tf = true)
    (hinc : tf.include_end = false) :
    TimeFrame.mk? tf.start tf.end_ = some tf := by
  obtain ⟨a, b, c⟩ := tf
  dsimp at hinc
  subst hinc
  unfold TimeFrame.mk?
  unfold tfValid at hval
  cases a with
  | none => cases b <;> rfl
  | some x =>
    cases b with
    | none => rfl
    | some y =>
      dsimp at hval ⊢
      rw [decide_eq_true_eq] at hval
      rw [if_neg (by omega)]

theorem groupTimeFrames_map (k e : Int) (l : List TimeFrame)
    (hval : ∀ tf ∈ l, tfValid tf = true ∧ tf.include_end = false) :
    groupTimeFrames (l.map (fun sec =>
      ⟨k, e, convert_none_to_nat sec.start, convert_none_to_nat sec.end_⟩)) =
      some l := by
  induction l with
  | nil => rfl
  | cons tf l ih =>
    rw [List.map_cons, groupTimeFrames]
    have h0 := hval tf (List.mem_cons_self tf l)
    rw [show convert_none_to_nat tf.start = tf.start from rfl,
      show convert_none_to_nat tf.end_ = tf.end_ from rfl,
      mk?_of_valid tf h0.1 h0.2, ih (fun t ht => hval t (List.mem_cons_of_mem tf ht))]

theorem mem_exportRecordRows (r : ChunkRecord) (row : CacheRow)
    (h : row ∈ exportRecordRows r) : row.key = r.key ∧ row.end_ = r.end_ := by
  obtain ⟨sec, _, rfl⟩ := List.mem_map.mp h
  exact ⟨rfl, rfl⟩

theorem insertSortedDistinct_gt (k : Int) (acc : List Int)
    (h : ∀ a ∈ acc, a < k) : insertSortedDistinct k acc = acc ++ [k] := by
  induction acc with
  | nil => rfl
  | cons y ys ih =>
    have hy := h y (List.mem_cons_self y ys)
    rw [insertSortedDistinct, if_neg (by omega), if_neg (by omega),
      ih (fun a ha => h a (List.mem_cons_of_mem y ha))]
    rfl

theorem insertSortedDistinct_mem (k : Int) (acc : List Int)
    (h : ∀ a ∈ acc, a < k) : insertSortedDistinct k (acc ++ [k]) = acc ++ [k] := by
  induction acc with
  | nil => simp [insertSortedDistinct]
  | cons y ys ih =>
    have hy := h y (List.mem_cons_self y ys)
    rw [List.cons_append, insertSortedDistinct, if_neg (by omega),
      if_neg (by omega), ih (fun a ha => h a (List.mem_cons_of_mem y ha))]

theorem foldl_insert_block (rows : List CacheRow) (k : Int) (acc : List Int)
    (hkeys : ∀ row ∈ rows, row.key = k) (hlt : ∀ a ∈ acc, a < k) :
    rows.foldl (fun ac row => insertSortedDistinct row.key ac) (acc ++ [k]) =
      acc ++ [k] := by
  induction rows with
  | nil => rfl
  | cons row rest ih =>
    rw [List.foldl_cons, hkeys row (List.mem_cons_self row rest),
      insertSortedDistinct_mem k acc hlt,
      ih (fun rr hr => hkeys rr (List.mem_cons_of_mem row hr))]

theorem foldl_insert_block_ne (rows : List CacheRow) (k : Int) (acc : List Int)
    (hne : rows ≠ []) (hkeys : ∀ row ∈ rows, row.key = k)
    (hlt : ∀ a ∈ acc, a < k) :
    rows.foldl (fun ac row => insertSortedDistinct row.key ac) acc =
      acc ++ [k] := by
  cases rows with
  | nil => exact absurd rfl hne
  | cons row rest =>
    rw [List.foldl_cons, hkeys row (List.mem_cons_self row rest),
      insertSortedDistinct_gt k acc hlt,
      foldl_insert_block rest k acc
        (fun rr hr => hkeys rr (List.mem_cons_of_mem row hr)) hlt]

theorem sortedKeys_export : ∀ (data : List ChunkRecord),
    (data.map (fun r => r.key)).Sorted (· < ·) →
    (∀ r ∈ data, r.sections ≠ []) →
    ∀ (acc : List Int), (∀ a ∈ acc, ∀ r ∈ data, a < r.key) →
    ((data.map exportRecordRows).flatten).foldl
        (fun ac row => insertSortedDistinct row.key ac) acc =
      acc ++ data.map (fun r => r.key) := by
  intro data
  induction data with
  | nil => intro _ _ acc _; simp
  | cons r rest ih =>
    intro hsort hne acc hlt
    rw [List.map_cons, List.flatten_cons, List.foldl_append]
    have hblock : (exportRecordRows r).foldl
        (fun ac row => insertSortedDistinct row.key ac) acc = acc ++ [r.key] := by
      refine foldl_insert_block_ne (exportRecordRows r) r.key acc ?_ ?_ ?_
      · intro hnil
        exact hne r (List.mem_cons_self r rest)
          (List.map_eq_nil_iff.mp hnil)
      · exact fun row hrow => (mem_exportRecordRows r row hrow).1
      · exact fun a ha => hlt a ha r (List.mem_cons_self r rest)
    rw [hblock]
    rw [List.map_cons] at hsort
    have hsortRest : (rest.map (fun r => r.key)).Sorted (· < ·) :=
      (List.sorted_cons.mp hsort).2
    have hheads : ∀ b ∈ rest.map (fun r => r.key), r.key < b :=
      (List.sorted_cons.mp hsort).1
    have := ih hsortRest (fun r1 h1 => hne r1 (List.mem_cons_of_mem r h1))
      (acc ++ [r.key]) ?_
    · rw [this, List.append_assoc]
      rfl
    · intro a ha r1 h1
      rcases List.mem_append.mp ha with h | h
      · exact hlt a h r1 (List.mem_cons_of_mem r h1)
      · have : a = r.key := by simpa using h
        subst this
        exact hheads r1.key (List.mem_map.mpr ⟨r1, h1, rfl⟩)

theorem filter_export_block (r : ChunkRecord) (k : Int) (hk : r.key = k) :
    (exportRecordRows r).filter (fun row => row.key == k) = exportRecordRows r :=
  List.filter_eq_self.mpr fun row hrow => by
    rw [beq_iff_eq, (mem_exportRecordRows r row hrow).1, hk]

theorem filter_export_block_ne (r : ChunkRecord) (k : Int) (hk : r.key ≠ k) :
    (exportRecordRows r).filter (fun row => row.key == k) = [] :=
  List.filter_eq_nil_iff.mpr fun row hrow => by
    rw [beq_iff_eq, (mem_exportRecordRows r row hrow).1]
    exact hk

theorem filter_export (data : List ChunkRecord)
    (hsort : (data.map (fun r => r.key)).Sorted (· < ·)) :
    ∀ r ∈ data, ((data.map exportRecordRows).flatten).filter
        (fun row => row.key == r.key) = exportRecordRows r := by
  induction data with
  | nil => intro r hr; cases hr
  | cons r0 rest ih =>
    intro r hr
    rw [List.map_cons, List.flatten_cons, List.filter_append]
    rw [List.map_cons] at hsort
    have hheads : ∀ b ∈ rest.map (fun r => r.key), r0.key < b :=
      (List.sorted_cons.mp hsort).1
    rcases List.mem_cons.mp hr with rfl | hr'
    · rw [filter_export_block r r.key rfl]
      have hrest : (rest.map exportRecordRows).flatten.filter
          (fun row => row.key == r.key) = [] := by
        refine List.filter_eq_nil_iff.mpr fun row hrow => ?_
        obtain ⟨rows1, hrows1, hrowmem⟩ := List.mem_flatten.mp hrow
        obtain ⟨r1, hr1, rfl⟩ := List.mem_map.mp hrows1
        rw [beq_iff_eq, (mem_exportRecordRows r1 row hrowmem).1]
        have := hheads r1.key (List.mem_map.mpr ⟨r1, hr1, rfl⟩)
        omega
      rw [hrest, List.append_nil]
    · have hne0 : r0.key ≠ r.key := by
        have := hheads r.key (List.mem_map.mpr ⟨r, hr', rfl⟩)
        omega
      rw [filter_export_block_ne r0 r.key hne0, List.nil_append]
      exact ih (List.sorted_cons.mp hsort).2 r hr'

theorem importGroup_record (bds : List TimeFrame) (rows : List CacheRow)
    (r : ChunkRecord) (recs : List ChunkRecord)
    (hfilter : rows.filter (fun row => row.key == r.key) = exportRecordRows r)
    (hne : r.sections ≠ []) (hkey : r.key ≤ r.end_)
    (hval : ∀ tf ∈ r.sections, tfValid tf = true ∧ tf.include_end = false)
    (hmem : bds.any (fun b => tfEq b ⟨some r.key, some r.end_, false⟩) = true) :
    importGroup bds rows r.key recs = some (recs ++ [r]) := by
  unfold importGroup
  rw [hfilter]
  cases hsec : r.sections with
  | nil => exact absurd hsec hne
  | cons s0 ss =>
    rw [show exportRecordRows r = (⟨r.key, r.end_, convert_none_to_nat s0.start,
        convert_none_to_nat s0.end_⟩ : CacheRow) ::
        ss.map (fun sec => ⟨r.key, r.end_, convert_none_to_nat sec.start,
          convert_none_to_nat sec.end_⟩) from by
      rw [exportRecordRows, hsec, List.map_cons]]
    dsimp only
    have hall : ((⟨r.key, r.end_, convert_none_to_nat s0.start,
        convert_none_to_nat s0.end_⟩ : CacheRow) ::
        ss.map (fun sec => ⟨r.key, r.end_, convert_none_to_nat sec.start,
          convert_none_to_nat sec.end_⟩)).all (fun row => row.end_ == r.end_) =
        true := by
      rw [List.all_eq_true]
      intro row hrow
      rcases List.mem_cons.mp hrow with rfl | hrow'
      · exact beq_self_eq_true r.end_
      · obtain ⟨sec, _, rfl⟩ := List.mem_map.mp hrow'
        exact beq_self_eq_true r.end_
    rw [hall, if_pos rfl]
    rw [show TimeFrame.mk? (some r.key) (some r.end_) =
        some ⟨some r.key, some r.end_, false⟩ from by
      rw [TimeFrame.mk?, if_neg (by omega)]]
    dsimp only
    rw [hmem, if_pos rfl]
    rw [show ((⟨r.key, r.end_, convert_none_to_nat s0.start,
        convert_none_to_nat s0.end_⟩ : CacheRow) ::
        ss.map (fun sec => ⟨r.key, r.end_, convert_none_to_nat sec.start,
          convert_none_to_nat sec.end_⟩)) =
        (s0 :: ss).map (fun sec => ⟨r.key, r.end_, convert_none_to_nat sec.start,
          convert_none_to_nat sec.end_⟩) from by rw [List.map_cons]]
    rw [groupTimeFrames_map r.key r.end_ (s0 :: ss) (hsec ▸ hval)]
    obtain ⟨k0, e0, sec0⟩ := r
    dsimp only at hsec ⊢
    rw [hsec]

theorem importLoop_exact (bds : List TimeFrame) (rows : List CacheRow)
    (todo : List ChunkRecord) :
    ∀ (recs : List ChunkRecord),
      (∀ r ∈ todo, rows.filter (fun row => row.key == r.key) =
          exportRecordRows r ∧ r.sections ≠ [] ∧ r.key ≤ r.end_ ∧
        (∀ tf ∈ r.sections, tfValid tf = true ∧ tf.include_end = false) ∧
        bds.any (fun b => tfEq b ⟨some r.key, some r.end_, false⟩) = true) →
      importLoop bds rows (todo.map (fun r => r.key)) recs =
        some (recs ++ todo) := by
  induction todo with
  | nil => intro recs _; simp [importLoop]
  | cons r rest ih =>
    intro recs hfacts
    obtain ⟨hf, hne, hkey, hval, hmem⟩ := hfacts r (List.mem_cons_self r rest)
    rw [List.map_cons, importLoop,
      importGroup_record bds rows r recs hf hne hkey hval hmem]
    dsimp only
    rw [ih (recs ++ [r]) (fun r1 h1 => hfacts r1 (List.mem_cons_of_mem r h1)),
      List.append_assoc]
    rfl

theorem chunkBoundariesOf_mem (s : GoodSectionsResults) (r : ChunkRecord)
    (hr : r ∈ s.data) :
    (chunkBoundariesOf s).any
      (fun b => tfEq b ⟨some r.key, some r.end_, false⟩) = true := by
  rw [List.any_eq_true]
  refine ⟨⟨some r.key, some r.end_, false⟩, List.mem_map.mpr ⟨r, hr, rfl⟩, ?_⟩
  simp [tfEq]

/-- C1 (amended).  Cache round trip on accumulators the counterexample does
not touch: if the chunk keys are strictly increasing and every record has a
non-empty `sections` list of well-formed intervals (fresh from detection:
`start <= end` where bounded, `include_end` unset), then importing the
exported cache against the accumulator's own chunk boundaries rebuilds the
records exactly, so `combined()` of the rebuilt accumulator equals
`combined()` of the original. -/
theorem cache_roundtrip_amended (s : GoodSectionsResults)
    (hsort : (s.data.map (fun r => r.key)).Sorted (· < ·))
    (hne : ∀ r ∈ s.data, r.sections ≠ [])
    (hkey : ∀ r ∈ s.data, r.key ≤ r.end_)
    (hval : ∀ r ∈ s.data, ∀ tf ∈ r.sections,
      tfValid tf = true ∧ tf.include_end = false) :
    GoodSectionsResults.import_from_cache ⟨s.max_sample_period, []⟩
        s.export_to_cache (chunkBoundariesOf s) = some s ∧
    (GoodSectionsResults.import_from_cache ⟨s.max_sample_period, []⟩
        s.export_to_cache (chunkBoundariesOf s)).map
      (fun s1 => s1.combined) = some s.combined := by
  have hkeys : sortedKeys s.export_to_cache = s.data.map (fun r => r.key) := by
    have := sortedKeys_export s.data hsort hne []
      (fun a ha => absurd ha (List.not_mem_nil a))
    simpa [sortedKeys, GoodSectionsResults.export_to_cache] using this
  have hloop : importLoop (chunkBoundariesOf s) s.export_to_cache
      (s.data.map (fun r => r.key)) [] = some ([] ++ s.data) :=
    importLoop_exact (chunkBoundariesOf s) s.export_to_cache s.data []
      (fun r hr => ⟨filter_export s.data hsort r hr, hne r hr, hkey r hr,
        hval r hr, chunkBoundariesOf_mem s r hr⟩)
  have h1 : GoodSectionsResults.import_from_cache ⟨s.max_sample_period, []⟩
      s.export_to_cache (chunkBoundariesOf s) = some s := by
    rw [GoodSectionsResults.import_from_cache]
    rw [show (⟨s.max_sample_period, []⟩ : GoodSectionsResults).data = [] from rfl,
      hkeys, hloop]
    simp
  exact ⟨h1, by rw [h1]; rfl⟩

/-- Witness for `cache_roundtrip_amended`: a two-chunk accumulator with
non-empty, well-formed sections lists round-trips exactly. -/
theorem cache_roundtrip_amended_witness :
    GoodSectionsResults.import_from_cache ⟨1, []⟩ stC1w.export_to_cache
        (chunkBoundariesOf stC1w) = some stC1w ∧
    (GoodSectionsResults.import_from_cache ⟨1, []⟩ stC1w.export_to_cache
        (chunkBoundariesOf stC1w)).map (fun s1 => s1.combined) =
      some stC1w.combined :=
  cache_roundtrip_amended stC1w (by decide) (by decide) (by decide) (by decide)

theorem mk?_some_bounded (k e : Int) (tfB : TimeFrame)
    (h : TimeFrame.mk? (some k) (some e) = some tfB) :
    tfB = ⟨some k, some e, false⟩ := by
  rw [TimeFrame.mk?] at h
  split at h
  · exact Option.noConfusion h
  · injection h with h1
    exact h1.symm

theorem importGroup_members (bds : List TimeFrame) (rows : List CacheRow)
    (k : Int) (recs recs1 : List ChunkRecord)
    (h : importGroup bds rows k recs = some recs1) :
    ∀ r ∈ recs1, r ∈ recs ∨
      bds.any (fun b => tfEq b ⟨some r.key, some r.end_, false⟩) = true := by
  intro r hr
  unfold importGroup at h
  split at h
  · injection h with h1
    exact Or.inl (h1 ▸ hr)
  · rename_i g0 grest heq
    split at h
    · cases hmk : TimeFrame.mk? (some k) (some g0.end_) with
      | none => rw [hmk] at h; exact Option.noConfusion h
      | some tfB =>
        rw [hmk] at h
        dsimp only at h
        split at h
        · rename_i hmem
          cases hgt : groupTimeFrames (g0 :: grest) with
          | none => rw [hgt] at h; exact Option.noConfusion h
          | some tfs =>
            rw [hgt] at h
            injection h with h1
            rw [← h1] at hr
            rcases List.mem_append.mp hr with hin | hin
            · exact Or.inl hin
            · have : r = ⟨k, g0.end_, tfs⟩ := by simpa using hin
              subst this
              rw [mk?_some_bounded k g0.end_ tfB hmk] at hmem
              exact Or.inr hmem
        · injection h with h1
          exact Or.inl (h1 ▸ hr)
    · exact Option.noConfusion h

theorem importLoop_members (bds : List TimeFrame) (rows : List CacheRow)
    (ks : List Int) :
    ∀ (recs recs1 : List ChunkRecord),
      importLoop bds rows ks recs = some recs1 →
      ∀ r ∈ recs1, r ∈ recs ∨
        bds.any (fun b => tfEq b ⟨some r.key, some r.end_, false⟩) = true := by
  induction ks with
  | nil =>
    intro recs recs1 h r hr
    simp only [importLoop, Option.some.injEq] at h
    exact Or.inl (h ▸ hr)
  | cons k ks ih =>
    intro recs recs1 h r hr
    rw [importLoop] at h
    cases hg : importGroup bds rows k recs with
    | none => rw [hg] at h; exact Option.noConfusion h
    | some recs2 =>
      rw [hg] at h
      rcases ih recs2 recs1 h r hr with hin | hmem
      · exact importGroup_members bds rows k recs recs2 hg r hin
      · exact Or.inr hmem

theorem importLoop_stale (bds : List TimeFrame) (cached : List CacheRow)
    (ks : List Int) (recs : List ChunkRecord)
    (hstale : ∀ k ∈ ks, staleGroupOK cached bds k = true) :
    importLoop bds cached ks recs = some recs := by
  induction ks with
  | nil => rfl
  | cons k ks ih =>
    have hk := hstale k (List.mem_cons_self k ks)
    rw [importLoop]
    have hg : importGroup bds cached k recs = some recs := by
      unfold staleGroupOK at hk
      unfold importGroup
      split at hk
      · rfl
      · rename_i g0 grest heq
        rw [Bool.and_eq_true, Bool.and_eq_true] at hk
        obtain ⟨⟨hall, hle⟩, hnotmem⟩ := hk
        rw [hall, if_pos rfl]
        rw [show TimeFrame.mk? (some k) (some g0.end_) =
            some ⟨some k, some g0.end_, false⟩ from by
          rw [TimeFrame.mk?,
            if_neg (by rw [decide_eq_true_eq] at hle; omega)]]
        dsimp only
        rw [Bool.not_eq_true' ] at hnotmem
        rw [hnotmem]
        rfl
    rw [hg]
    exact ih (fun k1 h1 => hstale k1 (List.mem_cons_of_mem k h1))

/-- C9 (amended).  Stale-chunk skip as the code implements it:
(a) `import_from_cache` never appends a chunk group whose reconstructed
boundary is not a member of the supplied chunk boundaries — every record of a
successful import is either pre-existing or has its boundary in the list;
(b) when every cache group is `end`-consistent, has a constructible boundary
and is stale, the import succeeds and appends nothing (silent discard) — but
the `end`-consistency assertion runs before the membership test, so it is
fatal even for stale groups (the counterexample). -/
theorem stale_skip_amended (m : Int) (init : List ChunkRecord)
    (cached : List CacheRow) (bds : List TimeFrame) :
    (∀ (s1 : GoodSectionsResults) (r : ChunkRecord),
      GoodSectionsResults.import_from_cache ⟨m, init⟩ cached bds = some s1 →
      r ∈ s1.data → r ∈ init ∨
        bds.any (fun b => tfEq b ⟨some r.key, some r.end_, false⟩) = true) ∧
    ((∀ k ∈ sortedKeys cached, staleGroupOK cached bds k = true) →
      GoodSectionsResults.import_from_cache ⟨m, init⟩ cached bds =
        some ⟨m, init⟩) := by
  constructor
  · intro s1 r himp hr
    rw [GoodSectionsResults.import_from_cache] at himp
    cases hl : importLoop bds cached (sortedKeys cached)
        (⟨m, init⟩ : GoodSectionsResults).data with
    | none => rw [hl] at himp; exact Option.noConfusion himp
    | some recs1 =>
      rw [hl] at himp
      injection himp with h1
      rw [← h1] at hr
      exact importLoop_members bds cached (sortedKeys cached) init recs1 hl r hr
  · intro hstale
    rw [GoodSectionsResults.import_from_cache,
      importLoop_stale bds cached (sortedKeys cached) init hstale]

/-- Witness for `stale_skip_amended`: a consistent, stale, single-group cache
table is silently discarded — the import succeeds and appends nothing. -/
theorem stale_skip_amended_witness :
    GoodSectionsResults.import_from_cache ⟨0, []⟩ staleC9 [] =
      some ⟨0, []⟩ :=
  (stale_skip_amended 0 [] staleC9 []).2 (by decide)

theorem mem_insertSortedDistinct (x y : Int) (l : List Int)
    (h : x ∈ insertSortedDistinct y l) : x = y ∨ x ∈ l := by
  induction l with
  | nil => simpa [insertSortedDistinct] using h
  | cons z zs ih =>
    rw [insertSortedDistinct] at h
    by_cases h1 : y < z
    · rw [if_pos h1] at h
      rcases List.mem_cons.mp h with rfl | h2
      · exact Or.inl rfl
      · exact Or.inr h2
    · rw [if_neg h1] at h
      by_cases h2 : y = z
      · rw [if_pos h2] at h
        exact Or.inr h
      · rw [if_neg h2] at h
        rcases List.mem_cons.mp h with rfl | h3
        · exact Or.inr (List.mem_cons_self x zs)
        · rcases ih h3 with h4 | h4
          · exact Or.inl h4
          · exact Or.inr (List.mem_cons_of_mem z h4)

theorem mem_sortedKeys_aux (x : Int) (rows : List CacheRow) :
    ∀ acc : List Int,
      x ∈ rows.foldl (fun ac row => insertSortedDistinct row.key ac) acc →
      x ∈ acc ∨ x ∈ rows.map (fun row => row.key) := by
  induction rows with
  | nil => exact fun acc h => Or.inl h
  | cons row rest ih =>
    intro acc h
    rw [List.foldl_cons] at h
    rcases ih (insertSortedDistinct row.key acc) h with h1 | h1
    · rcases mem_insertSortedDistinct x row.key acc h1 with rfl | h2
      · exact Or.inr (by rw [List.map_cons]; exact List.mem_cons_self _ _)
      · exact Or.inl h2
    · exact Or.inr (by rw [List.map_cons]; exact List.mem_cons_of_mem _ h1)

theorem mem_sortedKeys (rows : List CacheRow) (x : Int)
    (h : x ∈ sortedKeys rows) : x ∈ rows.map (fun row => row.key) := by
  rcases mem_sortedKeys_aux x rows [] h with h1 | h1
  · cases h1
  · exact h1

theorem importGroup_keys (bds : List TimeFrame) (rows : List CacheRow)
    (k : Int) (recs recs1 : List ChunkRecord)
    (h : importGroup bds rows k recs = some recs1) :
    ∀ r ∈ recs1, r ∈ recs ∨ r.key = k := by
  intro r hr
  unfold importGroup at h
  split at h
  · injection h with h1
    exact Or.inl (h1 ▸ hr)
  · rename_i g0 grest heq
    split at h
    · cases hmk : TimeFrame.mk? (some k) (some g0.end_) with
      | none => rw [hmk] at h; exact Option.noConfusion h
      | some tfB =>
        rw [hmk] at h
        dsimp only at h
        split at h
        · cases hgt : groupTimeFrames (g0 :: grest) with
          | none => rw [hgt] at h; exact Option.noConfusion h
          | some tfs =>
            rw [hgt] at h
            injection h with h1
            rw [← h1] at hr
            rcases List.mem_append.mp hr with hin | hin
            · exact Or.inl hin
            · have : r = ⟨k, g0.end_, tfs⟩ := by simpa using hin
              subst this
              exact Or.inr rfl
        · injection h with h1
          exact Or.inl (h1 ▸ hr)
    · exact Option.noConfusion h

theorem importLoop_keys (bds : List TimeFrame) (rows : List CacheRow)
    (ks : List Int) :
    ∀ (recs recs1 : List ChunkRecord),
      importLoop bds rows ks recs = some recs1 →
      ∀ r ∈ recs1, r ∈ recs ∨ r.key ∈ ks := by
  induction ks with
  | nil =>
    intro recs recs1 h r hr
    simp only [importLoop, Option.some.injEq] at h
    exact Or.inl (h ▸ hr)
  | cons k ks ih =>
    intro recs recs1 h r hr
    rw [importLoop] at h
    cases hg : importGroup bds rows k recs with
    | none => rw [hg] at h; exact Option.noConfusion h
    | some recs2 =>
      rw [hg] at h
      rcases ih recs2 recs1 h r hr with hin | hmem
      · rcases importGroup_keys bds rows k recs recs2 hg r hin with h1 | h1
        · exact Or.inl h1
        · exact Or.inr (h1 ▸ List.mem_cons_self k ks)
      · exact Or.inr (List.mem_cons_of_mem k hmem)

/-- C10 (confirmed).  Empty-chunk loss through the cache: a chunk record
whose `sections` list is empty contributes no row to `export_to_cache` (its
key is absent from the exported table, given distinct chunk keys), and no
record with its key can appear in any accumulator that `import_from_cache`
rebuilds from that exported table. -/
theorem empty_chunk_cache_loss (s : GoodSectionsResults) (r : ChunkRecord)
    (bds : List TimeFrame) (m : Int) (s1 : GoodSectionsResults)
    (hr : r ∈ s.data) (hemp : r.sections = [])
    (hnodup : (s.data.map (fun rec => rec.key)).Nodup)
    (himp : GoodSectionsResults.import_from_cache ⟨m, []⟩ s.export_to_cache
      bds = some s1) :
    r.key ∉ s.export_to_cache.map (fun row => row.key) ∧
    r.key ∉ s1.data.map (fun rec => rec.key) := by
  have hpart1 : r.key ∉ s.export_to_cache.map (fun row => row.key) := by
    intro hmem
    obtain ⟨row, hrow, hrowkey⟩ := List.mem_map.mp hmem
    obtain ⟨rows1, hrows1, hrowmem⟩ := List.mem_flatten.mp hrow
    obtain ⟨r1, hr1, rfl⟩ := List.mem_map.mp hrows1
    have hkey1 : r1.key = r.key := by
      rw [← hrowkey, (mem_exportRecordRows r1 row hrowmem).1]
    have : r1 = r := List.inj_on_of_nodup_map hnodup hr1 hr hkey1
    subst this
    rw [exportRecordRows, hemp] at hrowmem
    cases hrowmem
  refine ⟨hpart1, ?_⟩
  intro hmem
  obtain ⟨rec, hrec, hreckey⟩ := List.mem_map.mp hmem
  rw [GoodSectionsResults.import_from_cache] at himp
  cases hl : importLoop bds s.export_to_cache (sortedKeys s.export_to_cache)
      (⟨m, []⟩ : GoodSectionsResults).data with
  | none => rw [hl] at himp; exact Option.noConfusion himp
  | some recs1 =>
    rw [hl] at himp
    injection himp with h1
    rw [← h1] at hrec
    rcases importLoop_keys bds s.export_to_cache
        (sortedKeys s.export_to_cache) [] recs1 hl rec hrec with hin | hks
    · cases hin
    · exact hpart1 (hreckey ▸ mem_sortedKeys s.export_to_cache rec.key hks)

/-- Witness for `empty_chunk_cache_loss`: chunk `[0,10]` with no sections is
absent from the cache and from the re-imported accumulator. -/
theorem empty_chunk_cache_loss_witness :
    (0 : Int) ∉ stC10w.export_to_cache.map (fun row => row.key) ∧
    (0 : Int) ∉ (([⟨12, 20, [⟨some 13, some 14, false⟩]⟩] :
      List ChunkRecord).map (fun rec => rec.key)) :=
  empty_chunk_cache_loss stC10w ⟨0, 10, []⟩ (chunkBoundariesOf stC10w) 1
    ⟨1, [⟨12, 20, [⟨some 13, some 14, false⟩]⟩]⟩ (by decide) rfl (by decide)
    (by decide)
